import Mathlib

/-!
Shallow embedding of the blob storage core in `src/realm/bin_blob.cpp`
(classes `BinBlob` and `BigBlob` of namespace `realm`).

Modelling conventions.

* A byte is a `Nat`; a flat leaf node is modelled by its byte list; a chunked
  directory node is modelled by the list of its children's byte lists
  (`translate`/`get_as_ref`/`get_size_from_header` of the node substrate
  become list access, and a child's header size is its list length).
* `size_t` arithmetic is `Nat`.  At the two subtractions of
  `BigBlob::replace` that can go below zero (`max_binary_size -
  lastNode.size()` and `data_size -= space_left`) the 64-bit wrap-around is
  made explicit with `% 2 ^ 64`.
* Reads outside the caller-supplied `data` buffer and non-termination of the
  copy loop are undefined behaviour in the source; fallible operations
  therefore return `Option`, `none` meaning "no defined result".  Failed
  `REALM_ASSERT` checks are likewise modelled as `none`.
* `BinBlob::max_binary_size` (the specification's `MaxLeafCapacity`) is
  declared in `bin_blob.hpp`, which is not among the provided sources; it is
  kept as an explicit parameter `max` throughout.
-/

/-- A `BinBlob` root node: the context flag of the header picks between the
flat layout (all bytes in this node) and the chunked layout (this node holds
references to leaf blobs with the actual data). -/
inductive Blob where
  | flat (content : List Nat)
  | chunked (children : List (List Nat))
deriving DecidableEq

/-- `m_size` of the root array: for a flat blob the byte count, for a chunked
blob the number of child references stored in the root. -/
def Blob.msize : Blob → Nat
  | .flat c => c.length
  | .chunked cs => cs.length

/-- Total length of a directory's children (`BigBlob::blob_size`, which sums
`get_size_from_header` over all children). -/
def sumLen (cs : List (List Nat)) : Nat := (cs.map List.length).sum

/-- `BinBlob::blob_size` (bin_blob.cpp lines 214-223): dispatches on the
context flag. -/
def Blob.blobSize : Blob → Nat
  | .flat c => c.length
  | .chunked cs => sumLen cs

/-- The child-walking loop of `BigBlob::get_at` (bin_blob.cpp lines 74-97).
`pos` is the original position (used for the returned `next_pos`), `off` the
running offset that the loop decrements by each skipped child's size.  The
`[]` case is the loop's `ndx >= size()` exit, which sets `pos = 0` and
returns an empty slice. -/
def BigBlob.getAtAux (pos : Nat) : Nat → List (List Nat) → List Nat × Nat
  | _, [] => ([], 0)
  | off, c :: rest =>
    if c.length ≤ off then BigBlob.getAtAux pos (off - c.length) rest
    else (c.drop off, if rest = [] then 0 else pos + (c.length - off))

/-- `BigBlob::get_at` (bin_blob.cpp lines 72-98).  The function reads child 0
before the loop, so an empty directory dereferences an invalid ref: `none`. -/
def BigBlob.getAt (cs : List (List Nat)) (pos : Nat) : Option (List Nat × Nat) :=
  if cs = [] then none else some (BigBlob.getAtAux pos pos cs)

/-- `BinBlob::get_at` (bin_blob.cpp lines 130-147): chunked blobs delegate to
`BigBlob::get_at`; flat blobs return the suffix starting at `pos` (or an
empty slice) and always `next_pos = 0`. -/
def BinBlob.getAt (b : Blob) (pos : Nat) : Option (List Nat × Nat) :=
  match b with
  | .chunked cs => BigBlob.getAt cs pos
  | .flat c => some (if pos < c.length then (c.drop pos, 0) else ([], 0))

/-- Modelled from the spec: `append_within_capacity` (section 4.1).
`BinBlob::add`, used by `BigBlob::replace` to copy bytes into a leaf, is
declared in `bin_blob.hpp`, which is not among the provided sources.  Per the
spec it appends the given bytes at the end of the leaf and requires the
resulting length to stay within `MaxLeafCapacity`. -/
def BinBlob.addBytes (leaf : List Nat) (data : List Nat) : List Nat := leaf ++ data

/-- The `while (data_size)` loop of `BigBlob::replace` (bin_blob.cpp lines
113-126).  `off` is the cursor offset of `data` into the original buffer,
`rem` the loop's (possibly wrapped-around) `data_size`.  Each iteration
copies `min(max_binary_size, rem)` bytes from the cursor into a fresh leaf;
a copy that would read past the end of the caller's buffer is undefined
behaviour, hence `none`.  `fuel` bounds the iteration count: when `max > 0`
every in-bounds iteration consumes at least one buffer byte, so
`data.length + 1` steps suffice for every terminating run; exhaustion (which
happens exactly when the source loop diverges, i.e. `max = 0` with `rem ≠ 0`
staying in bounds) is modelled as `none`. -/
def BigBlob.replaceLoop (max : Nat) (data : List Nat) : Nat → Nat → Nat → Option (List (List Nat))
  | _, _, 0 => none
  | off, rem, fuel + 1 =>
    if rem = 0 then some []
    else
      let stc := min max rem
      if off + stc ≤ data.length then
        match BigBlob.replaceLoop max data (off + stc) (rem - stc) fuel with
        | some rest => some (BinBlob.addBytes [] ((data.drop off).take stc) :: rest)
        | none => none
      else none

/-- `BigBlob::replace` (bin_blob.cpp lines 100-128).  The last child is
topped up with `min(space_left, data_size)` bytes, but the cursor and the
remaining count are then advanced by `space_left` (lines 110-111), with
`size_t` wrap-around when `space_left > data_size`.  An empty directory
dereferences `get_as_ref(size() - 1)` with index `2^64 - 1`: `none`. -/
def BigBlob.replace (max : Nat) (cs : List (List Nat)) (data : List Nat) :
    Option (List (List Nat)) :=
  match cs.getLast? with
  | none => none
  | some last =>
    let space_left := (max + 2 ^ 64 - last.length) % 2 ^ 64
    let size_to_copy := min space_left data.length
    let rem := (data.length + 2 ^ 64 - space_left) % 2 ^ 64
    match BigBlob.replaceLoop max data space_left rem (data.length + 1) with
    | some rest => some (cs.dropLast ++ BinBlob.addBytes last (data.take size_to_copy) :: rest)
    | none => none

/-- One contiguous in-place copy into a buffer: bytes `[dest, dest +
src.length)` of `buf` are overwritten with `src`.  Models `std::copy` /
`std::copy_backward` (whose overlapping-range behaviour, with the source
slice read out before writing, is exactly this) and the final
`std::copy(data, ...)` / terminator store of `BinBlob::replace`. -/
def writeAt (buf : List Nat) (dest : Nat) (src : List Nat) : List Nat :=
  buf.take dest ++ src ++ buf.drop (dest + src.length)

/-- The flat branch of `BinBlob::replace` (bin_blob.cpp lines 163-208) for
the case `new_size ≤ max_binary_size`: copy-on-write (no content effect),
reallocation to `new_size` (keeping existing bytes; fresh bytes are
uninitialised, written before becoming visible — padded with 0 here), the
gap expand/shrink moves, the write of `data`, and the optional zero
terminator, with the first `new_size` bytes as the committed content. -/
def BinBlob.flatReplace (old : List Nat) (bg en : Nat) (data : List Nat) (azt : Bool) :
    List Nat :=
  let remove_size := en - bg
  let add_size := if azt then data.length + 1 else data.length
  let new_size := old.length - remove_size + add_size
  let buf0 := old ++ List.replicate (new_size - old.length) 0
  let buf1 :=
    if bg ≠ old.length then
      let tl := (buf0.drop en).take (old.length - en)
      if remove_size < add_size then writeAt buf0 (new_size - (old.length - en)) tl
      else if add_size < remove_size then writeAt buf0 (bg + add_size) tl
      else buf0
    else buf0
  let buf2 := writeAt buf1 bg data
  let buf3 := if azt then writeAt buf2 (bg + data.length) [0] else buf2
  buf3.take new_size

/-- The reallocation plus tail-shift step of the flat branch of
`BinBlob::replace` (bin_blob.cpp lines 180-200), factored on the computed
`add_size` value `A`; `BinBlob.flatReplace` is definitionally the write of
`data` (and the optional terminator) into this buffer followed by the commit
of `new_size` (see `flatReplace_shift`). -/
def shiftBuf (old : List Nat) (bg en A : Nat) : List Nat :=
  let N := old.length - (en - bg) + A
  let buf0 := old ++ List.replicate (N - old.length) 0
  if bg ≠ old.length then
    let tl := (buf0.drop en).take (old.length - en)
    if en - bg < A then writeAt buf0 (N - (old.length - en)) tl
    else if A < en - bg then writeAt buf0 (bg + A) tl
    else buf0
  else buf0

/-- `BinBlob::replace` (bin_blob.cpp lines 149-210).  The leading
`REALM_ASSERT_3` checks (`begin ≤ end ≤ m_size`; note that for a chunked
root `m_size` is the number of child refs) and the chunked-mode
`REALM_ASSERT(begin == 0 && end == 0)` are modelled as `none` on failure.
A flat replace whose `new_size` exceeds `max_binary_size` promotes: a fresh
chunked root receives the existing flat node as its only child and the data
is appended through `BigBlob::replace`. -/
def BinBlob.replace (max : Nat) (b : Blob) (bg en : Nat) (data : List Nat) (azt : Bool) :
    Option Blob :=
  if bg ≤ en ∧ en ≤ b.msize then
    match b with
    | .chunked cs =>
      if bg = 0 ∧ en = 0 then
        match BigBlob.replace max cs data with
        | some cs' => some (.chunked cs')
        | none => none
      else none
    | .flat old =>
      let remove_size := en - bg
      let add_size := if azt then data.length + 1 else data.length
      let new_size := old.length - remove_size + add_size
      if max < new_size then
        match BigBlob.replace max [old] data with
        | some cs' => some (.chunked cs')
        | none => none
      else some (.flat (BinBlob.flatReplace old bg en data azt))
  else none

/-- One caller-level mutation request against the facade. -/
structure Op where
  bg : Nat
  en : Nat
  data : List Nat
  azt : Bool

/-- Run a sequence of `BinBlob::replace` calls from a starting blob; a call
with no defined result aborts the build. -/
def buildFrom (max : Nat) : Blob → List Op → Option Blob
  | b, [] => some b
  | b, op :: ops =>
    match BinBlob.replace max b op.bg op.en op.data op.azt with
    | some b' => buildFrom max b' ops
    | none => none

/-- Build a blob from the empty flat blob by successive `replace` calls. -/
def build (max : Nat) (ops : List Op) : Option Blob := buildFrom max (.flat []) ops

/-- The iterator protocol of the spec: call `get_at`, stop once the returned
`next_pos` is 0 (keeping that final segment), otherwise continue from
`next_pos`.  `fuel` bounds the number of calls. -/
def readLoop (b : Blob) : Nat → Nat → Option (List Nat)
  | _, 0 => none
  | pos, fuel + 1 =>
    match BinBlob.getAt b pos with
    | none => none
    | some (seg, next) =>
      if next = 0 then some seg
      else
        match readLoop b next fuel with
        | some rest => some (seg ++ rest)
        | none => none

/-- Read a blob back from position 0, concatenating the returned segments in
order until a call returns `next_pos = 0`.  `blobSize + 1` calls always
suffice. -/
def readAll (b : Blob) : Option (List Nat) := readLoop b 0 (b.blobSize + 1)

/-- The logical byte sequence a blob stores. -/
def Blob.contents : Blob → List Nat
  | .flat c => c
  | .chunked cs => cs.flatten

/-- Append a single byte: a replace at the end for a flat blob, the
append-only `replace(0, 0, ...)` for a chunked one. -/
def appendByte (max : Nat) (b : Blob) (x : Nat) : Option Blob :=
  match b with
  | .flat c => BinBlob.replace max b c.length c.length [x] false
  | .chunked _ => BinBlob.replace max b 0 0 [x] false

/-- Run `appendByte` over a list of bytes. -/
def appendBytesFrom (max : Nat) : Blob → List Nat → Option Blob
  | b, [] => some b
  | b, x :: xs =>
    match appendByte max b x with
    | some b' => appendBytesFrom max b' xs
    | none => none

/-- Append bytes one at a time starting from the empty flat blob. -/
def appendBytes (max : Nat) (xs : List Nat) : Option Blob :=
  appendBytesFrom max (.flat []) xs

/-- Run a sequence of directory appends (`BigBlob::replace`). -/
def appendMany (max : Nat) : List (List Nat) → List (List Nat) → Option (List (List Nat))
  | cs, [] => some cs
  | cs, d :: ds =>
    match BigBlob.replace max cs d with
    | some cs' => appendMany max cs' ds
    | none => none

/-- The directory invariant of the spec (section 3): at least one child,
every child but the last of length exactly `MaxLeafCapacity`, the last child
of length in `[1, MaxLeafCapacity]`. -/
def dirInv (max : Nat) (cs : List (List Nat)) : Bool :=
  cs.dropLast.all (fun c => c.length = max) &&
    match cs.getLast? with
    | some last => decide (1 ≤ last.length) && decide (last.length ≤ max)
    | none => false

/-- Structural well-formedness needed by the read path: a chunked root holds
at least one child reference (guaranteed for every blob the code builds). -/
def Blob.wfRead : Blob → Bool
  | .flat _ => true
  | .chunked cs => !cs.isEmpty

theorem sumLen_cons (c : List Nat) (cs : List (List Nat)) :
    sumLen (c :: cs) = c.length + sumLen cs := by
  simp [sumLen]

theorem sumLen_eq_length_flatten (cs : List (List Nat)) : sumLen cs = cs.flatten.length := by
  simp [sumLen]

theorem BigBlob.getAtAux_ge (cs : List (List Nat)) : ∀ (pos off : Nat), sumLen cs ≤ off →
    BigBlob.getAtAux pos off cs = ([], 0) := by
  induction cs with
  | nil => intro pos off _; rfl
  | cons c rest ih =>
    intro pos off h
    rw [sumLen_cons] at h
    have hc : c.length ≤ off := by omega
    rw [show BigBlob.getAtAux pos off (c :: rest) =
        BigBlob.getAtAux pos (off - c.length) rest from by
      simp [BigBlob.getAtAux, hc]]
    exact ih pos (off - c.length) (by omega)

theorem BigBlob.getAtAux_lt (cs : List (List Nat)) : ∀ (pos off : Nat), off < sumLen cs →
    ∃ sz next, 0 < sz ∧
      BigBlob.getAtAux pos off cs = ((cs.flatten.drop off).take sz, next) ∧
      (next = 0 → sumLen cs ≤ off + sz) ∧ (next ≠ 0 → next = pos + sz) := by
  induction cs with
  | nil => intro pos off h; simp [sumLen] at h
  | cons c rest ih =>
    intro pos off h
    rw [sumLen_cons] at h
    by_cases hc : c.length ≤ off
    · obtain ⟨sz, next, hsz, heq, h0, hn0⟩ := ih pos (off - c.length) (by omega)
      refine ⟨sz, next, hsz, ?_, fun hh => by have := h0 hh; rw [sumLen_cons]; omega, hn0⟩
      rw [show BigBlob.getAtAux pos off (c :: rest) =
          BigBlob.getAtAux pos (off - c.length) rest from by
        simp [BigBlob.getAtAux, hc]]
      rw [heq]
      have hdrop : (c :: rest).flatten.drop off = rest.flatten.drop (off - c.length) := by
        rw [List.flatten_cons]
        conv_lhs => rw [show off = c.length + (off - c.length) from by omega]
        exact List.drop_append _
      rw [hdrop]
    · push_neg at hc
      refine ⟨c.length - off, if rest = [] then 0 else pos + (c.length - off), by omega, ?_, ?_, ?_⟩
      · rw [show BigBlob.getAtAux pos off (c :: rest) =
            (c.drop off, if rest = [] then 0 else pos + (c.length - off)) from by
          simp [BigBlob.getAtAux, Nat.not_le.mpr hc]]
        have hdrop : (c :: rest).flatten.drop off = c.drop off ++ rest.flatten := by
          rw [List.flatten_cons]
          exact List.drop_append_of_le_length (Nat.le_of_lt hc)
        rw [hdrop, List.take_append_of_le_length (by simp),
          List.take_of_length_le (by simp)]
      · intro h0
        by_cases hr : rest = []
        · subst hr; rw [sumLen_cons]; simp [sumLen]; omega
        · simp [hr] at h0; omega
      · intro hne
        by_cases hr : rest = []
        · simp [hr] at hne
        · simp [hr]

theorem readLoop_flat (c : List Nat) (pos fuel : Nat) (h : 0 < fuel) :
    readLoop (.flat c) pos fuel = some (c.drop pos) := by
  cases fuel with
  | zero => omega
  | succ n =>
    rw [readLoop]
    by_cases hp : pos < c.length
    · simp [BinBlob.getAt, hp]
    · have hd : c.drop pos = [] := List.drop_of_length_le (by omega)
      simp [BinBlob.getAt, hp, hd]

theorem readLoop_chunked (cs : List (List Nat)) (hne : cs ≠ []) :
    ∀ (fuel pos : Nat), sumLen cs - pos < fuel →
      readLoop (.chunked cs) pos fuel = some (cs.flatten.drop pos) := by
  intro fuel
  induction fuel with
  | zero => intro pos h; omega
  | succ n ih =>
    intro pos h
    rw [readLoop]
    have hget : BinBlob.getAt (.chunked cs) pos = some (BigBlob.getAtAux pos pos cs) := by
      simp [BinBlob.getAt, BigBlob.getAt, hne]
    by_cases hpos : pos < sumLen cs
    · obtain ⟨sz, next, hsz, heq, h0, hn0⟩ := BigBlob.getAtAux_lt cs pos pos hpos
      by_cases hnext : next = 0
      · have hge := h0 hnext
        have htake : (cs.flatten.drop pos).take sz = cs.flatten.drop pos := by
          apply List.take_of_length_le
          rw [List.length_drop, ← sumLen_eq_length_flatten]
          omega
        rw [hget, heq, htake]
        simp [hnext]
      · have hnv : next = pos + sz := hn0 hnext
        subst hnv
        have hih := ih (pos + sz) (by omega)
        rw [hget, heq]
        simp only [hih, if_neg hnext]
        rw [← List.drop_drop, List.take_append_drop]
    · have hflat : cs.flatten.drop pos = [] :=
        List.drop_of_length_le (by rw [← sumLen_eq_length_flatten]; omega)
      rw [hget, BigBlob.getAtAux_ge cs pos pos (by omega), hflat]
      simp

theorem readAll_wf (b : Blob) (h : b.wfRead = true) : readAll b = some b.contents := by
  cases b with
  | flat c =>
    rw [readAll, Blob.blobSize, readLoop_flat c 0 (c.length + 1) (by omega)]
    rfl
  | chunked cs =>
    have hne : cs ≠ [] := by
      simpa [Blob.wfRead, List.isEmpty_iff] using h
    rw [readAll, Blob.blobSize, readLoop_chunked cs hne _ 0 (by omega)]
    rfl

theorem BigBlob.replace_ne_nil {max : Nat} {cs : List (List Nat)} {data : List Nat}
    {cs' : List (List Nat)} (h : BigBlob.replace max cs data = some cs') : cs' ≠ [] := by
  simp only [BigBlob.replace] at h
  split at h
  · cases h
  · split at h
    · injection h with h'
      subst h'
      simp [BinBlob.addBytes]
    · cases h

theorem BinBlob.replace_wfRead {max : Nat} {b : Blob} {bg en : Nat} {data : List Nat}
    {azt : Bool} {b' : Blob} (h : BinBlob.replace max b bg en data azt = some b') :
    b'.wfRead = true := by
  cases b with
  | chunked cs =>
    simp only [BinBlob.replace] at h
    by_cases ha : bg ≤ en ∧ en ≤ (Blob.chunked cs).msize
    case neg => rw [if_neg ha] at h; cases h
    case pos =>
      rw [if_pos ha] at h
      by_cases hz : bg = 0 ∧ en = 0
      · rw [if_pos hz] at h
        cases heq : BigBlob.replace max cs data with
        | none => rw [heq] at h; cases h
        | some cs' =>
          rw [heq] at h
          injection h with h'
          subst h'
          simpa [Blob.wfRead, List.isEmpty_iff] using BigBlob.replace_ne_nil heq
      · rw [if_neg hz] at h; cases h
  | flat old =>
    simp only [BinBlob.replace] at h
    by_cases ha : bg ≤ en ∧ en ≤ (Blob.flat old).msize
    case neg => rw [if_neg ha] at h; cases h
    case pos =>
      rw [if_pos ha] at h
      by_cases hp : max < old.length - (en - bg) + (if azt then data.length + 1 else data.length)
      · rw [if_pos hp] at h
        cases heq : BigBlob.replace max [old] data with
        | none => rw [heq] at h; cases h
        | some cs' =>
          rw [heq] at h
          injection h with h'
          subst h'
          simpa [Blob.wfRead, List.isEmpty_iff] using BigBlob.replace_ne_nil heq
      · rw [if_neg hp] at h
        injection h with h'
        subst h'
        rfl

theorem buildFrom_wfRead (max : Nat) : ∀ (ops : List Op) (b b' : Blob), b.wfRead = true →
    buildFrom max b ops = some b' → b'.wfRead = true := by
  intro ops
  induction ops with
  | nil =>
    intro b b' hw h
    rw [buildFrom] at h
    injection h with h'
    subst h'
    exact hw
  | cons op ops ih =>
    intro b b' hw h
    rw [buildFrom] at h
    cases hr : BinBlob.replace max b op.bg op.en op.data op.azt with
    | none => rw [hr] at h; cases h
    | some b1 => rw [hr] at h; exact ih b1 b' (BinBlob.replace_wfRead hr) h

/-- C1: for every byte sequence built by a sequence of `replace`/`append`
calls starting from the empty blob (every call having a defined result),
reading the blob back with `read_at` from `pos = 0`, feeding each returned
`next_pos` back in and concatenating the returned segments until a call
returns `next_pos = 0` (that final segment included), yields exactly the
stored byte sequence. -/
theorem read_write_roundtrip (max : Nat) (ops : List Op) (b : Blob)
    (h : build max ops = some b) : readAll b = some b.contents :=
  readAll_wf b (buildFrom_wfRead max ops (.flat []) b rfl h)

theorem read_write_roundtrip_witness :
    build 10 [⟨0, 0, [65, 66, 67, 68, 69, 70, 71, 72, 73, 74, 75, 76], false⟩] =
        some (Blob.chunked [[65, 66, 67, 68, 69, 70, 71, 72, 73, 74], [75, 76]]) ∧
      readAll (Blob.chunked [[65, 66, 67, 68, 69, 70, 71, 72, 73, 74], [75, 76]]) =
        some [65, 66, 67, 68, 69, 70, 71, 72, 73, 74, 75, 76] := by
  refine ⟨by decide, ?_⟩
  have h := read_write_roundtrip 10
    [⟨0, 0, [65, 66, 67, 68, 69, 70, 71, 72, 73, 74, 75, 76], false⟩]
    (Blob.chunked [[65, 66, 67, 68, 69, 70, 71, 72, 73, 74], [75, 76]]) (by decide)
  rw [h]
  rfl

/-- C7: for every blob (a chunked one holding at least one child, as every
reachable blob does) and every position at or beyond `logical_size()`,
`get_at` returns an empty slice together with `next_pos = 0`; `get_at` is a
`const` read that never mutates the blob. -/
theorem read_past_logical_size (b : Blob) (hwf : b.wfRead = true) (pos : Nat)
    (h : b.blobSize ≤ pos) : BinBlob.getAt b pos = some ([], 0) := by
  cases b with
  | flat c =>
    simp only [Blob.blobSize] at h
    simp only [BinBlob.getAt]
    rw [if_neg (by omega)]
  | chunked cs =>
    have hne : cs ≠ [] := by simpa [Blob.wfRead, List.isEmpty_iff] using hwf
    simp only [BinBlob.getAt, BigBlob.getAt, if_neg hne]
    rw [BigBlob.getAtAux_ge cs pos pos (by simpa [Blob.blobSize] using h)]

theorem read_past_logical_size_witness :
    (Blob.chunked [[1, 2], [3]]).wfRead = true ∧
      BinBlob.getAt (Blob.chunked [[1, 2], [3]]) 7 = some ([], 0) :=
  ⟨by decide, read_past_logical_size (Blob.chunked [[1, 2], [3]]) (by decide) 7 (by decide)⟩

/-- C8: a `replace` against a chunked blob with `begin ≠ 0` or `end ≠ 0` is
rejected by the `REALM_ASSERT` contract checks before any mutation (either
the leading `end ≤ m_size` check or the chunked-mode `begin == 0 && end == 0`
check fails), and is never executed as an append. -/
theorem chunked_range_replace_rejected (max : Nat) (cs : List (List Nat)) (bg en : Nat)
    (data : List Nat) (azt : Bool) (h : ¬(bg = 0 ∧ en = 0)) :
    BinBlob.replace max (.chunked cs) bg en data azt = none := by
  by_cases ha : bg ≤ en ∧ en ≤ (Blob.chunked cs).msize
  · simp only [BinBlob.replace, if_pos ha]
    rw [if_neg h]
  · simp only [BinBlob.replace, if_neg ha]

theorem chunked_range_replace_rejected_witness :
    BinBlob.replace 10 (.chunked [[1], [1], [1], [1], [1], [1]]) 2 5 [7, 7] false = none :=
  chunked_range_replace_rejected 10 [[1], [1], [1], [1], [1], [1]] 2 5 [7, 7] false (by decide)


theorem BigBlob.replaceLoop_bounds (max : Nat) (data : List Nat) (h0 : 0 < max) :
    ∀ (fuel off rem : Nat), off + rem ≤ data.length → rem < fuel →
      ∃ rest, BigBlob.replaceLoop max data off rem fuel = some rest := by
  intro fuel
  induction fuel with
  | zero => intro off rem hb hf; omega
  | succ n ih =>
    intro off rem hb hf
    by_cases hr : rem = 0
    · refine ⟨[], ?_⟩
      simp only [BigBlob.replaceLoop]
      rw [if_pos hr]
    · have hbound : off + min max rem ≤ data.length := by omega
      obtain ⟨rest, hrest⟩ := ih (off + min max rem) (rem - min max rem) (by omega) (by omega)
      refine ⟨BinBlob.addBytes [] ((data.drop off).take (min max rem)) :: rest, ?_⟩
      simp only [BigBlob.replaceLoop]
      rw [if_neg hr, if_pos hbound, hrest]

theorem BigBlob.replaceLoop_flatten (max : Nat) (data : List Nat) :
    ∀ (fuel off rem : Nat) (rest : List (List Nat)),
      BigBlob.replaceLoop max data off rem fuel = some rest →
      rest.flatten = (data.drop off).take rem ∧ sumLen rest = rem := by
  intro fuel
  induction fuel with
  | zero => intro off rem rest h; cases h
  | succ n ih =>
    intro off rem rest h
    simp only [BigBlob.replaceLoop] at h
    by_cases hr : rem = 0
    · rw [if_pos hr] at h
      injection h with h'
      subst h'
      subst hr
      refine ⟨by simp, rfl⟩
    · rw [if_neg hr] at h
      by_cases hb : off + min max rem ≤ data.length
      · rw [if_pos hb] at h
        cases heq : BigBlob.replaceLoop max data (off + min max rem) (rem - min max rem) n with
        | none => rw [heq] at h; cases h
        | some rest' =>
          rw [heq] at h
          injection h with h'
          subst h'
          obtain ⟨hfl, hsl⟩ := ih _ _ _ heq
          constructor
          · rw [List.flatten_cons, hfl, BinBlob.addBytes, List.nil_append]
            rw [← List.drop_drop]
            conv_rhs => rw [show rem = min max rem + (rem - min max rem) from by omega,
              List.take_add]
          · rw [sumLen_cons, hsl, BinBlob.addBytes, List.nil_append, List.length_take,
              List.length_drop]
            omega
      · rw [if_neg hb] at h; cases h

theorem BigBlob.replaceLoop_shape (max : Nat) (data : List Nat) (h0 : 0 < max) :
    ∀ (fuel off rem : Nat) (rest : List (List Nat)),
      BigBlob.replaceLoop max data off rem fuel = some rest →
      (rem = 0 ↔ rest = []) ∧ (∀ c ∈ rest.dropLast, c.length = max) ∧
        (∀ c ∈ rest, 1 ≤ c.length ∧ c.length ≤ max) := by
  intro fuel
  induction fuel with
  | zero => intro off rem rest h; cases h
  | succ n ih =>
    intro off rem rest h
    simp only [BigBlob.replaceLoop] at h
    by_cases hr : rem = 0
    · rw [if_pos hr] at h
      injection h with h'
      subst h'
      exact ⟨by simp [hr], by simp, by simp⟩
    · rw [if_neg hr] at h
      by_cases hb : off + min max rem ≤ data.length
      · rw [if_pos hb] at h
        cases heq : BigBlob.replaceLoop max data (off + min max rem) (rem - min max rem) n with
        | none => rw [heq] at h; cases h
        | some rest' =>
          rw [heq] at h
          injection h with h'
          subst h'
          obtain ⟨hiff, hdl, hall⟩ := ih _ _ _ heq
          have hclen : (BinBlob.addBytes [] ((data.drop off).take (min max rem))).length
              = min max rem := by
            simp only [BinBlob.addBytes, List.nil_append, List.length_take, List.length_drop]
            omega
          refine ⟨⟨fun hh => absurd hh hr, fun hh => by cases hh⟩, ?_, ?_⟩
          · intro c hc
            by_cases hres : rest' = []
            · subst hres
              simp at hc
            · rw [List.dropLast_cons_of_ne_nil hres] at hc
              rcases List.mem_cons.mp hc with hc | hc
              · subst hc
                rw [hclen]
                have hne : rem - min max rem ≠ 0 := fun hz => hres (hiff.mp hz)
                omega
              · exact hdl c hc
          · intro c hc
            rcases List.mem_cons.mp hc with hc | hc
            · subst hc
              rw [hclen]
              omega
            · exact hall c hc
      · rw [if_neg hb] at h; cases h

theorem BigBlob.replace_eq_none (max : Nat) (cs : List (List Nat)) (last data : List Nat)
    (hm : max < 2 ^ 64) (hlast : cs.getLast? = some last) (hl : last.length ≤ max)
    (hlt : data.length < max - last.length) :
    BigBlob.replace max cs data = none := by
  simp only [BigBlob.replace, hlast]
  rw [show (max + 2 ^ 64 - last.length) % 2 ^ 64 = max - last.length from by omega]
  rw [show (data.length + 2 ^ 64 - (max - last.length)) % 2 ^ 64
      = data.length + 2 ^ 64 - (max - last.length) from by omega]
  simp only [BigBlob.replaceLoop]
  rw [if_neg (by omega), if_neg (by omega)]

theorem BigBlob.replace_props (max : Nat) (cs : List (List Nat)) (last : List Nat)
    (data : List Nat) (cs' : List (List Nat))
    (h0 : 0 < max) (hm : max < 2 ^ 64) (hd : data.length < 2 ^ 64)
    (hlast : cs.getLast? = some last) (hl : last.length ≤ max)
    (h : BigBlob.replace max cs data = some cs') :
    ∃ rest,
      cs' = cs.dropLast ++ (last ++ data.take (max - last.length)) :: rest ∧
      rest.flatten = data.drop (max - last.length) ∧
      sumLen rest = data.length - (max - last.length) ∧
      max - last.length ≤ data.length ∧
      (rest = [] ↔ data.length = max - last.length) ∧
      (∀ c ∈ rest.dropLast, c.length = max) ∧
      (∀ c ∈ rest, 1 ≤ c.length ∧ c.length ≤ max) := by
  by_cases hsl : max - last.length ≤ data.length
  case neg =>
    rw [BigBlob.replace_eq_none max cs last data hm hlast hl (by omega)] at h
    cases h
  case pos =>
    simp only [BigBlob.replace, hlast] at h
    rw [show (max + 2 ^ 64 - last.length) % 2 ^ 64 = max - last.length from by omega] at h
    rw [show (data.length + 2 ^ 64 - (max - last.length)) % 2 ^ 64
        = data.length - (max - last.length) from by omega] at h
    cases heq : BigBlob.replaceLoop max data (max - last.length)
        (data.length - (max - last.length)) (data.length + 1) with
    | none => rw [heq] at h; cases h
    | some rest =>
      rw [heq] at h
      injection h with h'
      obtain ⟨hfl, hslen⟩ := BigBlob.replaceLoop_flatten max data _ _ _ rest heq
      obtain ⟨hiff, hdl, hall⟩ := BigBlob.replaceLoop_shape max data h0 _ _ _ rest heq
      refine ⟨rest, ?_, ?_, hslen, hsl, ?_, hdl, hall⟩
      · simp only [BinBlob.addBytes,
          show min (max - last.length) data.length = max - last.length from by omega] at h'
        exact h'.symm
      · rw [hfl]
        exact List.take_of_length_le (by rw [List.length_drop])
      · constructor
        · intro hh
          have hz := hiff.mpr hh
          omega
        · intro hh
          exact hiff.mp (by omega)

theorem dirInv_elim (max : Nat) (cs : List (List Nat)) (h : dirInv max cs = true) :
    ∃ pre last, cs = pre ++ [last] ∧ (∀ c ∈ pre, c.length = max) ∧
      1 ≤ last.length ∧ last.length ≤ max := by
  rw [dirInv, Bool.and_eq_true] at h
  obtain ⟨hall, hlast⟩ := h
  cases hcl : cs.getLast? with
  | none => rw [hcl] at hlast; cases hlast
  | some last =>
    rw [hcl] at hlast
    rw [Bool.and_eq_true, decide_eq_true_eq, decide_eq_true_eq] at hlast
    obtain ⟨pre, hpre⟩ := List.getLast?_eq_some_iff.mp hcl
    refine ⟨pre, last, hpre, ?_, hlast.1, hlast.2⟩
    intro c hc
    have hc' : c ∈ cs.dropLast := by
      rw [hpre, List.dropLast_concat]
      exact hc
    simpa using List.all_eq_true.mp hall c hc'

theorem dirInv_intro (max : Nat) (pre : List (List Nat)) (last : List Nat)
    (hpre : ∀ c ∈ pre, c.length = max) (h1 : 1 ≤ last.length) (h2 : last.length ≤ max) :
    dirInv max (pre ++ [last]) = true := by
  rw [dirInv, Bool.and_eq_true]
  constructor
  · rw [List.dropLast_concat, List.all_eq_true]
    intro c hc
    simpa using hpre c hc
  · rw [List.getLast?_concat]
    simp [h1, h2]

theorem dirInv_of_shape (max : Nat) (pre rest : List (List Nat)) (mid : List Nat)
    (hpre : ∀ c ∈ pre, c.length = max) (hmid : mid.length = max) (h0 : 0 < max)
    (hdl : ∀ c ∈ rest.dropLast, c.length = max)
    (hall : ∀ c ∈ rest, 1 ≤ c.length ∧ c.length ≤ max) :
    dirInv max (pre ++ mid :: rest) = true := by
  by_cases hrn : rest = []
  · subst hrn
    exact dirInv_intro max pre mid hpre (by omega) (by omega)
  · obtain ⟨rl, hglr⟩ : ∃ rl, rest.getLast? = some rl :=
      ⟨rest.getLast hrn, List.getLast?_eq_getLast rest hrn⟩
    obtain ⟨rpre, hrpre⟩ := List.getLast?_eq_some_iff.mp hglr
    have hmem : rl ∈ rest := by
      rw [hrpre]
      simp
    have hre : pre ++ mid :: rest = (pre ++ mid :: rpre) ++ [rl] := by
      rw [hrpre]
      simp
    rw [hre]
    apply dirInv_intro
    · intro c hc
      simp only [List.mem_append, List.mem_cons] at hc
      rcases hc with hc | hc | hc
      · exact hpre c hc
      · subst hc
        exact hmid
      · apply hdl
        rw [hrpre, List.dropLast_concat]
        exact hc
    · exact (hall rl hmem).1
    · exact (hall rl hmem).2

theorem dirInv_bigReplace (max : Nat) (cs : List (List Nat)) (data : List Nat)
    (cs' : List (List Nat)) (h0 : 0 < max) (hm : max < 2 ^ 64)
    (hd : data.length < 2 ^ 64) (hinv : dirInv max cs = true)
    (h : BigBlob.replace max cs data = some cs') :
    dirInv max cs' = true ∧ cs'.flatten = cs.flatten ++ data ∧
      sumLen cs' = sumLen cs + data.length := by
  obtain ⟨pre, last, hpre, hprelen, h1, h2⟩ := dirInv_elim max cs hinv
  have hlast : cs.getLast? = some last := by
    rw [hpre]
    exact List.getLast?_concat _
  obtain ⟨rest, hcs', hfl, hslen, hsl, hiff, hdl, hall⟩ :=
    BigBlob.replace_props max cs last data cs' h0 hm hd hlast h2 h
  have hdrop : cs.dropLast = pre := by
    rw [hpre]
    exact List.dropLast_concat
  have hmid : (last ++ data.take (max - last.length)).length = max := by
    rw [List.length_append, List.length_take]
    omega
  have hf2 : cs'.flatten = cs.flatten ++ data := by
    rw [hcs', hdrop, hpre]
    simp only [List.flatten_append, List.flatten_cons, List.flatten_nil]
    rw [hfl]
    simp [List.append_assoc, List.take_append_drop]
  refine ⟨?_, hf2, ?_⟩
  · rw [hcs', hdrop]
    exact dirInv_of_shape max pre rest _ hprelen hmid h0 hdl hall
  · rw [sumLen_eq_length_flatten, sumLen_eq_length_flatten, hf2, List.length_append]

theorem BigBlob.replace_promote (max : Nat) (old data : List Nat) (cs' : List (List Nat))
    (h0 : 0 < max) (hm : max < 2 ^ 64) (hd : data.length < 2 ^ 64) (hle : old.length ≤ max)
    (h : BigBlob.replace max [old] data = some cs') :
    dirInv max cs' = true ∧ cs'.flatten = old ++ data ∧
      sumLen cs' = old.length + data.length ∧
      ∃ c rest0, cs' = c :: rest0 ∧ c.take old.length = old := by
  have hlast : ([old] : List (List Nat)).getLast? = some old := rfl
  obtain ⟨rest, hcs', hfl, hslen, hsl, hiff, hdl, hall⟩ :=
    BigBlob.replace_props max [old] old data cs' h0 hm hd hlast hle h
  rw [List.dropLast_single, List.nil_append] at hcs'
  have hmid : (old ++ data.take (max - old.length)).length = max := by
    rw [List.length_append, List.length_take]
    omega
  have hf2 : cs'.flatten = old ++ data := by
    rw [hcs']
    simp only [List.flatten_cons]
    rw [hfl]
    simp [List.append_assoc, List.take_append_drop]
  refine ⟨?_, hf2, ?_, ?_⟩
  · rw [hcs', show ((old ++ data.take (max - old.length)) :: rest : List (List Nat))
        = [] ++ (old ++ data.take (max - old.length)) :: rest from rfl]
    exact dirInv_of_shape max [] rest _ (by intro c hc; cases hc) hmid h0 hdl hall
  · rw [sumLen_eq_length_flatten, hf2, List.length_append]
  · refine ⟨old ++ data.take (max - old.length), rest, hcs', ?_⟩
    rw [List.take_append_of_le_length (Nat.le_refl _), List.take_length]

theorem flatReplace_shift (old data : List Nat) (bg en : Nat) (azt : Bool) :
    BinBlob.flatReplace old bg en data azt =
      (if azt then
          writeAt (writeAt (shiftBuf old bg en (data.length + 1)) bg data)
            (bg + data.length) [0]
        else writeAt (shiftBuf old bg en data.length) bg data).take
        (old.length - (en - bg) + (if azt then data.length + 1 else data.length)) := by
  cases azt <;> rfl

theorem flatWriteCoreFalse (old data buf1 : List Nat) (bg en : Nat)
    (h1 : bg ≤ en) (h2 : en ≤ old.length)
    (hb : buf1.take bg = old.take bg)
    (ht : (buf1.drop (bg + data.length)).take (old.length - en) = old.drop en)
    (hlen : bg + data.length + (old.length - en) ≤ buf1.length) :
    (writeAt buf1 bg data).take (old.length - (en - bg) + data.length) =
      old.take bg ++ data ++ old.drop en := by
  have hbl : bg ≤ buf1.length := by omega
  have hpre : (buf1.take bg ++ data).length = bg + data.length := by
    rw [List.length_append, List.length_take]
    omega
  have hN : old.length - (en - bg) + data.length
      = (buf1.take bg ++ data).length + (old.length - en) := by
    rw [hpre]
    omega
  simp only [writeAt]
  rw [hN, List.take_append, hb, ht]

theorem flatWriteCoreTrue (old data buf1 : List Nat) (bg en : Nat)
    (h1 : bg ≤ en) (h2 : en ≤ old.length)
    (hb : buf1.take bg = old.take bg)
    (ht : (buf1.drop (bg + (data.length + 1))).take (old.length - en) = old.drop en)
    (hlen : bg + (data.length + 1) + (old.length - en) ≤ buf1.length) :
    (writeAt (writeAt buf1 bg data) (bg + data.length) [0]).take
        (old.length - (en - bg) + (data.length + 1)) =
      old.take bg ++ data ++ [0] ++ old.drop en := by
  have hbl : bg ≤ buf1.length := by omega
  have hpre : (buf1.take bg ++ data).length = bg + data.length := by
    rw [List.length_append, List.length_take]
    omega
  have htk : (writeAt buf1 bg data).take (bg + data.length) = buf1.take bg ++ data := by
    simp only [writeAt]
    exact List.take_left' hpre
  have hdp : (writeAt buf1 bg data).drop (bg + data.length + 1)
      = buf1.drop (bg + (data.length + 1)) := by
    simp only [writeAt]
    rw [show bg + data.length + 1 = (buf1.take bg ++ data).length + 1 from by rw [hpre]]
    rw [List.drop_append, List.drop_drop,
      show bg + data.length + 1 = bg + (data.length + 1) from by omega]
  have houter : writeAt (writeAt buf1 bg data) (bg + data.length) [0]
      = (writeAt buf1 bg data).take (bg + data.length) ++ [0]
        ++ (writeAt buf1 bg data).drop (bg + data.length + 1) := rfl
  rw [houter, htk, hdp]
  have hpre2 : (buf1.take bg ++ data ++ [0]).length = bg + (data.length + 1) := by
    rw [List.length_append, hpre, show ([0] : List Nat).length = 1 from rfl]
    omega
  have hN : old.length - (en - bg) + (data.length + 1)
      = (buf1.take bg ++ data ++ [0]).length + (old.length - en) := by
    rw [hpre2]
    omega
  rw [hN, List.take_append, ht, hb]

theorem writeAt_mid_facts (buf0 tl : List Nat) (bg k : Nat) (old : List Nat) (en : Nat)
    (hk : bg ≤ k) (hkle : k ≤ buf0.length)
    (hf0 : buf0.take bg = old.take bg) (htl : tl = old.drop en)
    (htlen : tl.length = old.length - en) :
    (writeAt buf0 k tl).take bg = old.take bg ∧
      ((writeAt buf0 k tl).drop k).take (old.length - en) = old.drop en ∧
      k + (old.length - en) ≤ (writeAt buf0 k tl).length := by
  have hlk : (buf0.take k).length = k := by
    rw [List.length_take]
    omega
  refine ⟨?_, ?_, ?_⟩
  · simp only [writeAt]
    rw [List.take_append_of_le_length (by rw [List.length_append, hlk]; omega),
      List.take_append_of_le_length (by rw [hlk]; omega), List.take_take,
      show min bg k = bg from by omega, hf0]
  · simp only [writeAt]
    rw [List.append_assoc, List.drop_left' hlk, List.take_left' htlen, htl]
  · simp only [writeAt]
    rw [List.length_append, List.length_append, hlk, htlen]
    omega

theorem shiftBuf_facts (old : List Nat) (bg en A : Nat) (h1 : bg ≤ en)
    (h2 : en ≤ old.length) :
    (shiftBuf old bg en A).take bg = old.take bg ∧
      ((shiftBuf old bg en A).drop (bg + A)).take (old.length - en) = old.drop en ∧
      bg + A + (old.length - en) ≤ (shiftBuf old bg en A).length := by
  simp only [shiftBuf]
  have hlb : (old ++ List.replicate (old.length - (en - bg) + A - old.length) 0).length
      = old.length + (old.length - (en - bg) + A - old.length) := by
    rw [List.length_append, List.length_replicate]
  have hf0 : (old ++ List.replicate (old.length - (en - bg) + A - old.length) 0).take bg
      = old.take bg := List.take_append_of_le_length (by omega)
  have hftl : ((old ++ List.replicate (old.length - (en - bg) + A - old.length) 0).drop
        en).take (old.length - en) = old.drop en := by
    rw [List.drop_append_of_le_length h2]
    exact List.take_left' (by rw [List.length_drop])
  have htllen : (((old ++ List.replicate (old.length - (en - bg) + A - old.length) 0).drop
        en).take (old.length - en)).length = old.length - en := by
    rw [hftl, List.length_drop]
  by_cases hbg : bg = old.length
  · rw [if_neg (not_not_intro hbg)]
    have hen : en = old.length := by omega
    refine ⟨hf0, ?_, ?_⟩
    · rw [show old.length - en = 0 from by omega, List.take_zero, hen, List.drop_length]
    · rw [hlb]
      omega
  · rw [if_pos hbg]
    by_cases hgrow : en - bg < A
    · rw [if_pos hgrow]
      rw [show old.length - (en - bg) + A - (old.length - en) = bg + A from by omega]
      exact writeAt_mid_facts _ _ bg (bg + A) old en (by omega) (by rw [hlb]; omega)
        hf0 hftl htllen
    · rw [if_neg hgrow]
      by_cases hshrink : A < en - bg
      · rw [if_pos hshrink]
        exact writeAt_mid_facts _ _ bg (bg + A) old en (by omega) (by rw [hlb]; omega)
          hf0 hftl htllen
      · rw [if_neg hshrink]
        have hba : bg + A = en := by omega
        refine ⟨hf0, ?_, ?_⟩
        · rw [hba]
          exact hftl
        · rw [hlb]
          omega

theorem BinBlob.flatReplace_eq (old data : List Nat) (bg en : Nat) (azt : Bool)
    (h1 : bg ≤ en) (h2 : en ≤ old.length) :
    BinBlob.flatReplace old bg en data azt =
      old.take bg ++ data ++ (if azt then [0] else []) ++ old.drop en := by
  rw [flatReplace_shift]
  cases azt with
  | false =>
    obtain ⟨hb, ht, hlen⟩ := shiftBuf_facts old bg en data.length h1 h2
    rw [if_neg Bool.false_ne_true, if_neg Bool.false_ne_true]
    rw [flatWriteCoreFalse old data _ bg en h1 h2 hb ht hlen]
    simp
  | true =>
    obtain ⟨hb, ht, hlen⟩ := shiftBuf_facts old bg en (data.length + 1) h1 h2
    rw [if_pos rfl, if_pos rfl]
    rw [flatWriteCoreTrue old data _ bg en h1 h2 hb ht hlen]
    simp

/-- C4: for a flat blob with `begin ≤ end ≤ length`, when `new_size =
length - (end - begin) + |data| (+1 for a requested zero terminator)` stays
within `MaxLeafCapacity`, `replace` leaves the blob flat with content
`old[0, begin) ++ data ++ (one zero byte if requested) ++ old[end, length)`
and length exactly `new_size`. -/
theorem flat_replace_spec (max : Nat) (old data : List Nat) (bg en : Nat) (azt : Bool)
    (h1 : bg ≤ en) (h2 : en ≤ old.length)
    (hcap : old.length - (en - bg) + (if azt then data.length + 1 else data.length) ≤ max) :
    BinBlob.replace max (.flat old) bg en data azt =
        some (.flat (old.take bg ++ data ++ (if azt then [0] else []) ++ old.drop en)) ∧
      (old.take bg ++ data ++ (if azt then [0] else []) ++ old.drop en).length =
        old.length - (en - bg) + (if azt then data.length + 1 else data.length) := by
  constructor
  · simp only [BinBlob.replace]
    rw [if_pos (show bg ≤ en ∧ en ≤ (Blob.flat old).msize from ⟨h1, h2⟩)]
    rw [if_neg (by omega)]
    rw [BinBlob.flatReplace_eq old data bg en azt h1 h2]
  · cases azt with
    | false =>
      simp only [if_neg Bool.false_ne_true, List.length_append, List.length_take,
        List.length_drop, List.length_nil]
      omega
    | true =>
      simp at hcap ⊢
      omega

theorem flat_replace_spec_witness :
    BinBlob.replace 10 (.flat [1, 2, 3, 4, 5]) 1 3 [9, 9] true =
      some (.flat [1, 9, 9, 0, 4, 5]) :=
  ((flat_replace_spec 10 [1, 2, 3, 4, 5] [9, 9] 1 3 true (by decide) (by decide)
    (by decide)).1).trans (by rfl)

theorem BinBlob.replace_flat_to_chunked {max : Nat} {old data : List Nat} {bg en : Nat}
    {azt : Bool} {cs' : List (List Nat)}
    (h : BinBlob.replace max (.flat old) bg en data azt = some (.chunked cs')) :
    bg ≤ en ∧ en ≤ old.length ∧
      max < old.length - (en - bg) + (if azt then data.length + 1 else data.length) ∧
      BigBlob.replace max [old] data = some cs' := by
  simp only [BinBlob.replace] at h
  by_cases ha : bg ≤ en ∧ en ≤ (Blob.flat old).msize
  case neg => rw [if_neg ha] at h; cases h
  case pos =>
    rw [if_pos ha] at h
    by_cases hp : max < old.length - (en - bg) + (if azt then data.length + 1 else data.length)
    case neg =>
      rw [if_neg hp] at h
      injection h with h'
      simp at h'
    case pos =>
      rw [if_pos hp] at h
      cases heq : BigBlob.replace max [old] data with
      | none => rw [heq] at h; cases h
      | some cs1 =>
        rw [heq] at h
        injection h with h'
        injection h' with h''
        subst h''
        exact ⟨ha.1, ha.2, hp, rfl⟩

/-- C5: a flat replace whose computed `new_size` exceeds `MaxLeafCapacity`
promotes: the result is exactly the chunked root obtained by installing the
existing flat node as the sole initial child of a fresh directory and
delegating the full data payload to the directory append; in particular with
`MaxLeafCapacity = 10`, `replace(0, 0, "ABCDEFGHIJKL", 12, false)` on an
empty blob yields a chunked blob with two children of lengths `[10, 2]` and
`logical_size() = 12`. -/
theorem promotion_structure (max : Nat) (old data : List Nat) (bg en : Nat) (azt : Bool)
    (h1 : bg ≤ en) (h2 : en ≤ old.length)
    (hp : max < old.length - (en - bg) + (if azt then data.length + 1 else data.length)) :
    BinBlob.replace max (.flat old) bg en data azt
        = Option.map Blob.chunked (BigBlob.replace max [old] data) ∧
      BinBlob.replace 10 (.flat []) 0 0
          [65, 66, 67, 68, 69, 70, 71, 72, 73, 74, 75, 76] false
        = some (.chunked [[65, 66, 67, 68, 69, 70, 71, 72, 73, 74], [75, 76]]) ∧
      ([[65, 66, 67, 68, 69, 70, 71, 72, 73, 74], [75, 76]] : List (List Nat)).map
          List.length = [10, 2] ∧
      (Blob.chunked [[65, 66, 67, 68, 69, 70, 71, 72, 73, 74], [75, 76]]).blobSize = 12 := by
  refine ⟨?_, by decide, by decide, by decide⟩
  simp only [BinBlob.replace]
  rw [if_pos (show bg ≤ en ∧ en ≤ (Blob.flat old).msize from ⟨h1, h2⟩), if_pos hp]
  cases BigBlob.replace max [old] data <;> rfl

theorem promotion_structure_witness :
    BinBlob.replace 10 (.flat []) 0 0 [65, 66, 67, 68, 69, 70, 71, 72, 73, 74, 75, 76] false
      = Option.map Blob.chunked
        (BigBlob.replace 10 [[]] [65, 66, 67, 68, 69, 70, 71, 72, 73, 74, 75, 76]) :=
  (promotion_structure 10 [] [65, 66, 67, 68, 69, 70, 71, 72, 73, 74, 75, 76] 0 0 false
    (by decide) (by decide) (by decide)).1

/-- C9 (implicit): when a flat replace with `end > begin` promotes
(`new_size > MaxLeafCapacity`), the bytes in `[begin, end)` are not removed:
the old node's bytes stay intact at the head of the new directory and the
full data is appended after them, so the logical size is `L + |data|` and
not the flat-path value `L - (end - begin) + |data|`. -/
theorem promotion_discards_removal (max : Nat) (old data : List Nat) (bg en : Nat)
    (azt : Bool) (cs' : List (List Nat)) (h0 : 0 < max) (hm : max < 2 ^ 64)
    (hd : data.length < 2 ^ 64) (hbe : bg < en) (hle : old.length ≤ max)
    (h : BinBlob.replace max (.flat old) bg en data azt = some (.chunked cs')) :
    cs'.flatten = old ++ data ∧
      (Blob.chunked cs').blobSize = old.length + data.length ∧
      (Blob.chunked cs').blobSize ≠ old.length - (en - bg) + data.length ∧
      ∃ c rest0, cs' = c :: rest0 ∧ c.take old.length = old := by
  obtain ⟨hb1, hb2, hp, heq⟩ := BinBlob.replace_flat_to_chunked h
  obtain ⟨hinv, hfl, hsum, hhead⟩ := BigBlob.replace_promote max old data cs' h0 hm hd hle heq
  have hbs : (Blob.chunked cs').blobSize = sumLen cs' := rfl
  refine ⟨hfl, by rw [hbs]; exact hsum, ?_, hhead⟩
  rw [hbs, hsum]
  omega

theorem promotion_discards_removal_witness :
    BinBlob.replace 10 (.flat [0, 1, 2, 3, 4, 5, 6, 7, 8, 9]) 2 5
        [20, 21, 22, 23, 24, 25, 26, 27] false
      = some (.chunked [[0, 1, 2, 3, 4, 5, 6, 7, 8, 9], [20, 21, 22, 23, 24, 25, 26, 27]]) ∧
      (Blob.chunked [[0, 1, 2, 3, 4, 5, 6, 7, 8, 9],
          [20, 21, 22, 23, 24, 25, 26, 27]]).blobSize = 18 ∧
      (Blob.chunked [[0, 1, 2, 3, 4, 5, 6, 7, 8, 9],
          [20, 21, 22, 23, 24, 25, 26, 27]]).blobSize
        ≠ List.length [0, 1, 2, 3, 4, 5, 6, 7, 8, 9] - (5 - 2)
            + List.length [20, 21, 22, 23, 24, 25, 26, 27] := by
  refine ⟨by decide, ?_, ?_⟩
  · have h := promotion_discards_removal 10 [0, 1, 2, 3, 4, 5, 6, 7, 8, 9]
      [20, 21, 22, 23, 24, 25, 26, 27] 2 5 false
      [[0, 1, 2, 3, 4, 5, 6, 7, 8, 9], [20, 21, 22, 23, 24, 25, 26, 27]]
      (by decide) (by decide) (by decide) (by decide) (by decide) (by decide)
    exact h.2.1
  · have h := promotion_discards_removal 10 [0, 1, 2, 3, 4, 5, 6, 7, 8, 9]
      [20, 21, 22, 23, 24, 25, 26, 27] 2 5 false
      [[0, 1, 2, 3, 4, 5, 6, 7, 8, 9], [20, 21, 22, 23, 24, 25, 26, 27]]
      (by decide) (by decide) (by decide) (by decide) (by decide) (by decide)
    exact h.2.2.1

/-- C10 (implicit): a promoting flat replace with `add_zero_term = true`
counts the terminator byte in the `new_size` capacity check, but the
promoted chunked blob receives only the data bytes: no zero byte is
written and the logical size is `L + |data|`, without the terminator. -/
theorem promotion_drops_zero_terminator (max : Nat) (old data : List Nat) (bg en : Nat)
    (cs' : List (List Nat)) (h0 : 0 < max) (hm : max < 2 ^ 64) (hd : data.length < 2 ^ 64)
    (hle : old.length ≤ max)
    (h : BinBlob.replace max (.flat old) bg en data true = some (.chunked cs')) :
    max < old.length - (en - bg) + (data.length + 1) ∧
      cs'.flatten = old ++ data ∧
      (Blob.chunked cs').blobSize = old.length + data.length := by
  obtain ⟨hb1, hb2, hp, heq⟩ := BinBlob.replace_flat_to_chunked h
  obtain ⟨hinv, hfl, hsum, hhead⟩ := BigBlob.replace_promote max old data cs' h0 hm hd hle heq
  exact ⟨by simpa using hp, hfl, hsum⟩

theorem promotion_drops_zero_terminator_witness :
    BinBlob.replace 10 (.flat [1, 2, 3, 4, 5]) 5 5 [6, 7, 8, 9, 10] true
      = some (.chunked [[1, 2, 3, 4, 5, 6, 7, 8, 9, 10]]) ∧
      ([[1, 2, 3, 4, 5, 6, 7, 8, 9, 10]] : List (List Nat)).flatten
        = [1, 2, 3, 4, 5] ++ [6, 7, 8, 9, 10] ∧
      (Blob.chunked [[1, 2, 3, 4, 5, 6, 7, 8, 9, 10]]).blobSize = 10 := by
  refine ⟨by decide, ?_, by decide⟩
  have h := promotion_drops_zero_terminator 10 [1, 2, 3, 4, 5] [6, 7, 8, 9, 10] 5 5
    [[1, 2, 3, 4, 5, 6, 7, 8, 9, 10]] (by decide) (by decide) (by decide) (by decide)
    (by decide)
  exact h.2.1

/-- C2 (code bug): appending 3 bytes to a chunked blob whose last child has
8 free bytes (`MaxLeafCapacity = 10`, children of lengths `[10, 2]`).  The
source copies `min(space_left, |data|) = 3` bytes but then decrements the
remaining count by `space_left = 8` (bin_blob.cpp line 110), wrapping the
unsigned count around to `2^64 - 5` and advancing the cursor 8 bytes past
the 3-byte buffer, so the new-child loop reads out of bounds: no defined
result, where the spec's `min`-decrement would terminate with remaining 0. -/
theorem append_remaining_underflow :
    BigBlob.replace 10 [[0, 0, 0, 0, 0, 0, 0, 0, 0, 0], [1, 1]] [7, 7, 7] = none ∧
      BinBlob.replace 10 (.chunked [[0, 0, 0, 0, 0, 0, 0, 0, 0, 0], [1, 1]]) 0 0
        [7, 7, 7] false = none := by
  exact ⟨by decide, by decide⟩

/-- C6 (code bug): appending single bytes one at a time from the empty blob,
the blob is flat up to `MaxLeafCapacity = 10` bytes and promotes to chunked
at the 11th byte, but the 12th one-byte append hits the line-110 underflow
(last child holds 1 byte, `space_left = 9 > 1`) and reads out of bounds:
the claimed "Chunked for every size beyond the threshold" build is not
reachable past `MaxLeafCapacity + 1` bytes. -/
theorem one_byte_append_promotion :
    appendBytes 10 (List.replicate 10 1) = some (.flat (List.replicate 10 1)) ∧
      appendBytes 10 (List.replicate 11 1) =
        some (.chunked [List.replicate 10 1, [1]]) ∧
      appendBytes 10 (List.replicate 12 1) = none := by
  exact ⟨by decide, by decide, by decide⟩

theorem appendMany_dirInv (max : Nat) (h0 : 0 < max) (hm : max < 2 ^ 64) :
    ∀ (ds : List (List Nat)) (cs cs' : List (List Nat)),
      (∀ d ∈ ds, d.length < 2 ^ 64) → dirInv max cs = true →
      appendMany max cs ds = some cs' →
      dirInv max cs' = true ∧ sumLen cs' = sumLen cs + (ds.map List.length).sum := by
  intro ds
  induction ds with
  | nil =>
    intro cs cs' hb hinv h
    rw [appendMany] at h
    injection h with h'
    subst h'
    simp [hinv]
  | cons d ds ih =>
    intro cs cs' hb hinv h
    rw [appendMany] at h
    cases heq : BigBlob.replace max cs d with
    | none => rw [heq] at h; cases h
    | some cs1 =>
      rw [heq] at h
      obtain ⟨hinv1, _, hs1⟩ :=
        dirInv_bigReplace max cs d cs1 h0 hm (hb d (by simp)) hinv heq
      obtain ⟨hinv', hs'⟩ := ih cs1 cs' (fun d' hd' => hb d' (by simp [hd'])) hinv1 h
      refine ⟨hinv', ?_⟩
      rw [hs', hs1, List.map_cons, List.sum_cons]
      omega

/-- C3: for every chunked blob — born by promotion of a flat node of length
at most `MaxLeafCapacity` — and after any sequence of (defined) append
calls, the directory invariant holds: every child except the last has
length exactly `MaxLeafCapacity` and the last child length lies in
`[1, MaxLeafCapacity]`; `logical_size()` equals the sum of the child
lengths, which equals the total number of bytes ever appended, including
the bytes present at promotion. -/
theorem directory_invariant (max : Nat) (old data : List Nat) (cs0 : List (List Nat))
    (ds : List (List Nat)) (cs : List (List Nat))
    (h0 : 0 < max) (hm : max < 2 ^ 64) (hd : data.length < 2 ^ 64)
    (hds : ∀ d ∈ ds, d.length < 2 ^ 64) (hle : old.length ≤ max)
    (hpromo : BigBlob.replace max [old] data = some cs0)
    (happ : appendMany max cs0 ds = some cs) :
    dirInv max cs = true ∧ (Blob.chunked cs).blobSize = sumLen cs ∧
      sumLen cs = old.length + data.length + (ds.map List.length).sum := by
  obtain ⟨hinv0, _, hs0, _⟩ := BigBlob.replace_promote max old data cs0 h0 hm hd hle hpromo
  obtain ⟨hinv, hs⟩ := appendMany_dirInv max h0 hm ds cs0 cs hds hinv0 happ
  exact ⟨hinv, rfl, by omega⟩

theorem directory_invariant_witness :
    dirInv 10 [[65, 66, 67, 68, 69, 70, 71, 72, 73, 74],
        [75, 76, 9, 9, 9, 9, 9, 9, 9, 9]] = true ∧
      (Blob.chunked [[65, 66, 67, 68, 69, 70, 71, 72, 73, 74],
          [75, 76, 9, 9, 9, 9, 9, 9, 9, 9]]).blobSize
        = sumLen [[65, 66, 67, 68, 69, 70, 71, 72, 73, 74],
            [75, 76, 9, 9, 9, 9, 9, 9, 9, 9]] ∧
      sumLen [[65, 66, 67, 68, 69, 70, 71, 72, 73, 74], [75, 76, 9, 9, 9, 9, 9, 9, 9, 9]]
        = List.length ([] : List Nat)
            + List.length [65, 66, 67, 68, 69, 70, 71, 72, 73, 74, 75, 76]
            + ([[9, 9, 9, 9, 9, 9, 9, 9]].map List.length).sum :=
  directory_invariant 10 [] [65, 66, 67, 68, 69, 70, 71, 72, 73, 74, 75, 76]
    [[65, 66, 67, 68, 69, 70, 71, 72, 73, 74], [75, 76]] [[9, 9, 9, 9, 9, 9, 9, 9]]
    [[65, 66, 67, 68, 69, 70, 71, 72, 73, 74], [75, 76, 9, 9, 9, 9, 9, 9, 9, 9]]
    (by decide) (by decide) (by decide) (by decide) (by decide) (by decide) (by decide)
